import Mathlib

/-
Verification of the obj-alloc crate: a shallow embedding of the IdMap
identifier store (src/id_map.rs), the ObjAllocator orchestration layer
(src/lib.rs), the serialization round trip (src/deser.rs), and a
spec-modelled FieldCollex index (the external field_collex collaborator,
specified only at its interface).

Identifiers are u64 in the source; they are modelled as Nat.  The max_id
counter is only ever incremented by one per issuance, so u64 overflow is
unreachable for any feasible execution (and aborts rather than wraps in
the source's checked profile); it is therefore modelled without a modulus.
The backing HashMap<u64, V> is modelled as an association list with
overwrite-on-insert semantics, which keeps keys unique by construction.
-/

set_option maxHeartbeats 1000000

namespace ObjAlloc

/-- Decidable equality for Except, used to evaluate Result-returning
operations at concrete inputs. -/
instance {ε α : Type} [DecidableEq ε] [DecidableEq α] :
    DecidableEq (Except ε α) := fun x y =>
  match x, y with
  | .ok v, .ok w =>
    if h : v = w then isTrue (by rw [h])
    else isFalse (by intro hc; cases hc; exact h rfl)
  | .error v, .error w =>
    if h : v = w then isTrue (by rw [h])
    else isFalse (by intro hc; cases hc; exact h rfl)
  | .ok _, .error _ => isFalse (by intro hc; cases hc)
  | .error _, .ok _ => isFalse (by intro hc; cases hc)

/-! ### Association-list primitives modelling std::collections::HashMap -/

/-- Lookup of a key in an association list; models HashMap::get. -/
def lookupL {V : Type} (k : ℕ) : List (ℕ × V) → Option V
  | [] => none
  | p :: ps => if p.1 = k then some p.2 else lookupL k ps

/-- Removal of a key from an association list; models HashMap::remove's
effect on the table. -/
def eraseL {V : Type} (k : ℕ) (l : List (ℕ × V)) : List (ℕ × V) :=
  l.filter (fun p => p.1 ≠ k)

/-- Insert-or-overwrite; models HashMap::insert's effect on the table. -/
def insertL {V : Type} (k : ℕ) (v : V) (l : List (ℕ × V)) : List (ℕ × V) :=
  (k, v) :: eraseL k l

/-! ### IdMap (src/id_map.rs)

The store pairs the backing table with the max_id counter.  Rust methods
that mutate self are modelled by returning the updated store alongside the
method's return value. -/

/-- IdMap<K, V> from src/id_map.rs lines 91-95: backing table plus the
monotonic max_id counter.  The phantom key type K is erased; identifiers
are their u64 images. -/
structure IdMap (V : Type) where
  inner : List (ℕ × V)
  max_id : ℕ
deriving DecidableEq, Repr

/-- IdMap::with_id (src/id_map.rs lines 107-113): empty table, max_id 0. -/
def IdMap.with_id {V : Type} : IdMap V := ⟨[], 0⟩

/-- IdMap::with_id_capacity (src/id_map.rs lines 116-122): the capacity
argument only preallocates the hash table and has no observable effect on
the abstract state. -/
def IdMap.with_id_capacity {V : Type} (_capacity : ℕ) : IdMap V := ⟨[], 0⟩

/-- IdMap::insert (src/id_map.rs lines 125-130): increment max_id, store
the value under the fresh identifier, return the identifier. -/
def IdMap.insert {V : Type} (m : IdMap V) (value : V) : IdMap V × ℕ :=
  (⟨insertL (m.max_id + 1) value m.inner, m.max_id + 1⟩, m.max_id + 1)

/-- IdMap::insert_with_id (src/id_map.rs lines 136-143): raise max_id to
the supplied identifier if it is larger, overwrite, return the old value. -/
def IdMap.insert_with_id {V : Type} (m : IdMap V) (id : ℕ) (value : V) :
    IdMap V × Option V :=
  (⟨insertL id value m.inner, if id > m.max_id then id else m.max_id⟩,
   lookupL id m.inner)

/-- IdMap::insert_cyclic (src/id_map.rs lines 167-176).  The source takes
FnOnce(K) -> V; the closure is modelled with the store threaded through it
so that the reentrant usage discussed by the spec (a closure that itself
issues further identifiers) is expressible — a non-reentrant closure g is
represented as fun id m => (m, g id).  Faithful to line 174, the final
insertion stores the closure's result under the store's current max_id as
of the closure's return, not under the reserved identifier. -/
def IdMap.insert_cyclic {V : Type} (m : IdMap V) (f : ℕ → IdMap V → IdMap V × V) :
    IdMap V × ℕ :=
  let m1 : IdMap V := ⟨m.inner, m.max_id + 1⟩
  let new_id := m1.max_id
  let m2 := (f new_id m1).1
  let value := (f new_id m1).2
  (⟨insertL m2.max_id value m2.inner, m2.max_id⟩, new_id)

/-- IdMap::get (src/id_map.rs lines 179-181). -/
def IdMap.get {V : Type} (m : IdMap V) (id : ℕ) : Option V :=
  lookupL id m.inner

/-- IdMap::remove (src/id_map.rs lines 189-191): drop the key, return the
removed value if present; max_id is untouched. -/
def IdMap.remove {V : Type} (m : IdMap V) (id : ℕ) : IdMap V × Option V :=
  (⟨eraseL id m.inner, m.max_id⟩, lookupL id m.inner)

/-- IdMap::contains_id (src/id_map.rs lines 194-196). -/
def IdMap.contains_id {V : Type} (m : IdMap V) (id : ℕ) : Bool :=
  (lookupL id m.inner).isSome

/-- IdMap::len (src/id_map.rs lines 204-206). -/
def IdMap.len {V : Type} (m : IdMap V) : ℕ := m.inner.length

/-- IdMap::clear (src/id_map.rs lines 214-216): empty the table, keep
max_id. -/
def IdMap.clear {V : Type} (m : IdMap V) : IdMap V := ⟨[], m.max_id⟩

/-- Writing through IdMap::get_mut(id).unwrap() (src/lib.rs lines 167 and
183): overwrite the value stored under an identifier that is known to be
present; max_id is untouched. -/
def IdMap.setVal {V : Type} (m : IdMap V) (id : ℕ) (v : V) : IdMap V :=
  ⟨insertL id v m.inner, m.max_id⟩

/-- A sequence of auto-generating IdMap::insert calls, returning the final
store and the identifiers in issuance order. -/
def IdMap.insertSeq {V : Type} (m : IdMap V) : List V → IdMap V × List ℕ
  | [] => (m, [])
  | v :: vs =>
    let p := IdMap.insert m v
    let q := IdMap.insertSeq p.1 vs
    (q.1, p.2 :: q.2)

/-- Every key of the table is bounded by the counter.  This holds for
every store built through the public IdMap interface, since insert issues
max_id + 1 and insert_with_id raises max_id to any larger key. -/
def Bounded {V : Type} (m : IdMap V) : Prop :=
  ∀ p ∈ m.inner, p.1 ≤ m.max_id

instance {V : Type} (m : IdMap V) : Decidable (Bounded m) := by
  unfold Bounded; infer_instance

/-! ### FieldCollex, the external Field Index collaborator

The field_collex crate is not part of this repository; only its interface
is specified (spec sections 3, 6 and 9).  The definitions below are
therefore modelled from the spec rather than translated from source. -/

/-- InsertFieldCollexError / the Field Index's placement errors: the
rejected payload is carried back so the caller never loses data. -/
inductive PlaceErr (α : Type) where
  | OutOfSpan : α → PlaceErr α
  | AlreadyExist : α → PlaceErr α
deriving DecidableEq, Repr

/-- ModifyFieldCollexError: CannotFind plus the two placement rejections.
The payloads the source threads through these constructors are not
examined by any claim and are elided. -/
inductive ModifyErr where
  | CannotFind : ModifyErr
  | OutOfSpan : ModifyErr
  | AlreadyExist : ModifyErr
deriving DecidableEq, Repr

/-- Modelled from the spec: the Field Index's serde-visible state — a
bounded numeric span, a quantization unit, and the Records (identifier,
object pairs) in index order.  Derived field values are modelled as Nat
(the spec's examples use u32 values and a finite span).  The bucketing
algorithm is explicitly external and opaque (spec section 9), so buckets
are modelled at their coarsest observable granularity: one bucket per
derived value, matching remove/get being keyed by the exact field value. -/
structure FieldCollex (O : Type) where
  lo : ℕ
  hi : ℕ
  unit : ℕ
  elements : List (ℕ × O)
deriving DecidableEq, Repr

/-- Modelled from the spec: membership of a derived value in the span,
the spec's example span being the half-open range lo..hi. -/
def inSpan {O : Type} (c : FieldCollex O) (v : ℕ) : Prop :=
  c.lo ≤ v ∧ v < c.hi

instance {O : Type} (c : FieldCollex O) (v : ℕ) : Decidable (inSpan c v) := by
  unfold inSpan; infer_instance

/-- Extraction of the first list element satisfying a predicate, together
with the remaining elements in order; models the Field Index locating the
Record stored under a field value. -/
def extractP {α : Type} (p : α → Bool) : List α → Option (α × List α)
  | [] => none
  | x :: xs =>
    if p x then some (x, xs)
    else
      match extractP p xs with
      | none => none
      | some (y, ys) => some (y, x :: ys)

/-- Modelled from the spec: FieldCollex::insert — reject a Record whose
derived value is outside the span (OutOfSpan) or whose bucket is already
occupied (AlreadyExist), otherwise add it to the index. -/
def FieldCollex.insert {O : Type} (derive : O → ℕ) (c : FieldCollex O)
    (r : ℕ × O) : Except (PlaceErr (ℕ × O)) (FieldCollex O) :=
  if ¬ inSpan c (derive r.2) then .error (.OutOfSpan r)
  else if c.elements.any (fun x => derive x.2 == derive r.2) then
    .error (.AlreadyExist r)
  else .ok { c with elements := c.elements ++ [r] }

/-- Modelled from the spec: FieldCollex::remove — remove and return the
Record stored under the given field value, if any. -/
def FieldCollex.remove {O : Type} (derive : O → ℕ) (c : FieldCollex O)
    (v : ℕ) : Option (FieldCollex O × (ℕ × O)) :=
  match extractP (fun x => derive x.2 == v) c.elements with
  | none => none
  | some (r, rest) => some ({ c with elements := rest }, r)

/-- Modelled from the spec: FieldCollex::modify — apply the closure to the
object of the Record stored under the field value as one atomic index
operation, recompute its derived value, relocate the Record, and return
the closure's result together with the recomputed value; on any failure
the index is left unaltered. -/
def FieldCollex.modify {O R : Type} (derive : O → ℕ) (c : FieldCollex O)
    (v : ℕ) (f : O → O × R) : FieldCollex O × Except ModifyErr (R × ℕ) :=
  match extractP (fun x => derive x.2 == v) c.elements with
  | none => (c, .error .CannotFind)
  | some (r, rest) =>
    if ¬ inSpan c (derive (f r.2).1) then (c, .error .OutOfSpan)
    else if rest.any (fun x => derive x.2 == derive (f r.2).1) then
      (c, .error .AlreadyExist)
    else ({ c with elements := rest ++ [(r.1, (f r.2).1)] },
      .ok ((f r.2).2, derive (f r.2).1))

/-- Modelled from the spec: FieldCollex::try_modify.  The source's lib.rs
passes an infallible closure to both modify and try_modify; the two differ
only in how error payloads (elided here) are mapped, so the index-side
semantics coincide. -/
def FieldCollex.try_modify {O R : Type} (derive : O → ℕ) (c : FieldCollex O)
    (v : ℕ) (f : O → O × R) : FieldCollex O × Except ModifyErr (R × ℕ) :=
  FieldCollex.modify derive c v f

/-- Modelled from the spec: FieldCollex::extend — bulk insertion with no
error channel; a rejected Record is modelled as an aborted call (none),
since the spec gives the infallible variant no failure contract. -/
def FieldCollex.extend {O : Type} (derive : O → ℕ) (c : FieldCollex O) :
    List (ℕ × O) → Option (FieldCollex O)
  | [] => some c
  | r :: rs =>
    match FieldCollex.insert derive c r with
    | .ok c' => FieldCollex.extend derive c' rs
    | .error _ => none

/-- Modelled from the spec: FieldCollex::try_extend — insert Records in
order, stopping at and reporting the first failing element while
preserving the elements already placed. -/
def FieldCollex.try_extend {O : Type} (derive : O → ℕ) (c : FieldCollex O) :
    List (ℕ × O) → FieldCollex O × Option (PlaceErr (ℕ × O))
  | [] => (c, none)
  | r :: rs =>
    match FieldCollex.insert derive c r with
    | .ok c' => FieldCollex.try_extend derive c' rs
    | .error e => (c, some e)

/-- Modelled from the spec: FieldCollex::with_elements — build an index
from a whole batch, validating span membership and uniqueness for the
batch atomically; on failure no index is produced. -/
def FieldCollex.with_elements {O : Type} (derive : O → ℕ)
    (lo hi unit : ℕ) (rs : List (ℕ × O)) : Option (FieldCollex O) :=
  FieldCollex.extend derive ⟨lo, hi, unit, []⟩ rs

/-! ### ObjAllocator (src/lib.rs) -/

/-- The crate-private insert helper (src/lib.rs lines 13-23): issue an
identifier for the element's derived value and wrap both into a Record. -/
def insertObj {O : Type} (derive : O → ℕ) (m : IdMap ℕ) (elem : O) :
    IdMap ℕ × (ℕ × O) :=
  let p := IdMap.insert m (derive elem)
  (p.1, (p.2, elem))

/-- extend_from_vec (src/lib.rs lines 25-39): issue identifiers for every
element in order, collecting the Records. -/
def extend_from_vec {O : Type} (derive : O → ℕ) (m : IdMap ℕ) :
    List O → IdMap ℕ × List (ℕ × O)
  | [] => (m, [])
  | e :: es =>
    let p := insertObj derive m e
    let q := extend_from_vec derive p.1 es
    (q.1, p.2 :: q.2)

/-- ObjAllocator (src/lib.rs lines 44-53): the Identifier Store mapping
identifier to derived value, plus the Field Index. -/
structure ObjAllocator (O : Type) where
  id_map : IdMap ℕ
  collex : FieldCollex O
deriving DecidableEq, Repr

/-- ObjAllocator::new (src/lib.rs lines 85-90): empty store, empty index
bound to the span and unit.  FieldCollex::new's own validation of the
span/unit combination is opaque and not exercised by any claim; it is
modelled as always succeeding. -/
def ObjAllocator.new {O : Type} (lo hi unit : ℕ) : ObjAllocator O :=
  ⟨IdMap.with_id, ⟨lo, hi, unit, []⟩⟩

/-- ObjAllocator::insert (src/lib.rs lines 129-144): issue an identifier,
attempt index placement; on success return the identifier, on rejection
remove the just-issued Identifier Store entry and return the original
value inside the error. -/
def ObjAllocator.insert {O : Type} (derive : O → ℕ) (a : ObjAllocator O)
    (elem : O) : ObjAllocator O × Except (PlaceErr O) ℕ :=
  let p := insertObj derive a.id_map elem
  let m1 := p.1
  let id := p.2.1
  match FieldCollex.insert derive a.collex p.2 with
  | .ok c' => (⟨m1, c'⟩, .ok id)
  | .error (.OutOfSpan o) =>
    (⟨(IdMap.remove m1 id).1, a.collex⟩, .error (.OutOfSpan o.2))
  | .error (.AlreadyExist o) =>
    (⟨(IdMap.remove m1 id).1, a.collex⟩, .error (.AlreadyExist o.2))

/-- ObjAllocator::remove (src/lib.rs lines 146-153): remove the identifier
from the store; on absence return nothing, otherwise remove the Record
under the stored derived value from the index, unwrapping the lookup.
The unwrap panic is modelled as the outer none. -/
def ObjAllocator.remove {O : Type} (derive : O → ℕ) (a : ObjAllocator O)
    (id : ℕ) : Option (ObjAllocator O × Option O) :=
  let p := IdMap.remove a.id_map id
  match p.2 with
  | none => some (⟨p.1, a.collex⟩, none)
  | some v =>
    match FieldCollex.remove derive a.collex v with
    | none => none
    | some (c', r) => some (⟨p.1, c'⟩, some r.2)

/-- ObjAllocator::modify (src/lib.rs lines 155-169): look up the current
derived value, ask the index to apply the closure and recompute the field
atomically, then write the recomputed value back into the store. -/
def ObjAllocator.modify {O R : Type} (derive : O → ℕ) (a : ObjAllocator O)
    (id : ℕ) (f : O → O × R) : ObjAllocator O × Except ModifyErr R :=
  match IdMap.get a.id_map id with
  | none => (a, .error .CannotFind)
  | some v =>
    match FieldCollex.modify derive a.collex v f with
    | (_, .error e) => (a, .error e)
    | (c', .ok rk) => (⟨IdMap.setVal a.id_map id rk.2, c'⟩, .ok rk.1)

/-- ObjAllocator::try_modify (src/lib.rs lines 171-185): as modify, going
through the index's try_modify. -/
def ObjAllocator.try_modify {O R : Type} (derive : O → ℕ) (a : ObjAllocator O)
    (id : ℕ) (f : O → O × R) : ObjAllocator O × Except ModifyErr R :=
  match IdMap.get a.id_map id with
  | none => (a, .error .CannotFind)
  | some v =>
    match FieldCollex.try_modify derive a.collex v f with
    | (_, .error e) => (a, .error e)
    | (c', .ok rk) => (⟨IdMap.setVal a.id_map id rk.2, c'⟩, .ok rk.1)

/-- ObjAllocator::extend (src/lib.rs lines 119-122): issue identifiers for
the whole batch, then hand the Records to the index's infallible extend. -/
def ObjAllocator.extend {O : Type} (derive : O → ℕ) (a : ObjAllocator O)
    (vec : List O) : Option (ObjAllocator O) :=
  let p := extend_from_vec derive a.id_map vec
  match FieldCollex.extend derive a.collex p.2 with
  | some c' => some ⟨p.1, c'⟩
  | none => none

/-- ObjAllocator::try_extend (src/lib.rs lines 124-127): issue identifiers
for the whole batch, then hand the Records to the index's try_extend; the
Identifier Store is not rolled back on failure. -/
def ObjAllocator.try_extend {O : Type} (derive : O → ℕ) (a : ObjAllocator O)
    (vec : List O) : ObjAllocator O × Option (PlaceErr (ℕ × O)) :=
  let p := extend_from_vec derive a.id_map vec
  let q := FieldCollex.try_extend derive a.collex p.2
  (⟨p.1, q.1⟩, q.2)

/-- ObjAllocator::with_elements (src/lib.rs lines 104-117): issue
identifiers for every element, then build the index from the whole batch. -/
def ObjAllocator.with_elements {O : Type} (derive : O → ℕ)
    (lo hi unit : ℕ) (vec : List O) : Option (ObjAllocator O) :=
  let p := extend_from_vec derive IdMap.with_id vec
  match FieldCollex.with_elements derive lo hi unit p.2 with
  | some c => some ⟨p.1, c⟩
  | none => none

/-- ObjAllocator::get_with_id (src/lib.rs lines 187-190): two-step read
through the store's derived value into the index. -/
def ObjAllocator.get_with_id {O : Type} (derive : O → ℕ) (a : ObjAllocator O)
    (id : ℕ) : Option O :=
  match IdMap.get a.id_map id with
  | none => none
  | some v =>
    match extractP (fun x => derive x.2 == v) a.collex.elements with
    | none => none
    | some (r, _) => some r.2

/-! ### Serialization (src/deser.rs and the serde derives in src/lib.rs) -/

/-- The serialized form of an ObjAllocator: serde(transparent) plus
serde(skip) on id_map (src/lib.rs lines 41-53) make it exactly the Field
Index's representation, the Identifier Store omitted. -/
def ObjAllocator.serialize {O : Type} (a : ObjAllocator O) : FieldCollex O :=
  a.collex

/-- ObjAllocator::deserialize (src/deser.rs lines 14-45): parse the Field
Index's intermediate representation once, rebuild the Identifier Store by
walking the Records through the manual-identifier path, then reconstruct
the Field Index from the already-parsed span, unit and Records. -/
def ObjAllocator.deserialize {O : Type} (derive : O → ℕ) (c : FieldCollex O) :
    Option (ObjAllocator O) :=
  let m := c.elements.foldl
    (fun m r => (IdMap.insert_with_id m r.1 (derive r.2)).1)
    (IdMap.with_id_capacity c.elements.length)
  match FieldCollex.with_elements derive c.lo c.hi c.unit c.elements with
  | some c' => some ⟨m, c'⟩
  | none => none

/-! ### Invariants and reachability -/

/-- The spec's core invariant (spec section 3): the identifiers present in
the Identifier Store are exactly the identifiers carried by the Records in
the Field Index, and the stored derived value of each equals the current
derived value of its Record. -/
def Consistent {O : Type} (derive : O → ℕ) (a : ObjAllocator O) : Prop :=
  (∀ p ∈ a.id_map.inner,
     ∃ r ∈ a.collex.elements, r.1 = p.1 ∧ derive r.2 = p.2) ∧
  (∀ r ∈ a.collex.elements, IdMap.get a.id_map r.1 = some (derive r.2))

instance {O : Type} (derive : O → ℕ) (a : ObjAllocator O) :
    Decidable (Consistent derive a) := by
  unfold Consistent; infer_instance

/-- Uniqueness of derived values across the index's Records: each bucket
addresses at most one Record (spec section 3). -/
def KeysNodup {O : Type} (derive : O → ℕ) (c : FieldCollex O) : Prop :=
  (c.elements.map (fun r => derive r.2)).Nodup

instance {O : Type} (derive : O → ℕ) (c : FieldCollex O) :
    Decidable (KeysNodup derive c) := by
  unfold KeysNodup; infer_instance

/-- Every Record's derived value lies inside the index's span. -/
def AllInSpan {O : Type} (derive : O → ℕ) (c : FieldCollex O) : Prop :=
  ∀ r ∈ c.elements, inSpan c (derive r.2)

instance {O : Type} (derive : O → ℕ) (c : FieldCollex O) :
    Decidable (AllInSpan derive c) := by
  unfold AllInSpan; infer_instance

/-- Well-formedness of an allocator: the core consistency invariant, the
index's own bucket uniqueness and span discipline, and the Identifier
Store's keys being bounded by its counter. -/
def WF {O : Type} (derive : O → ℕ) (a : ObjAllocator O) : Prop :=
  Consistent derive a ∧ KeysNodup derive a.collex ∧
  AllInSpan derive a.collex ∧ Bounded a.id_map

instance {O : Type} (derive : O → ℕ) (a : ObjAllocator O) :
    Decidable (WF derive a) := by
  unfold WF; infer_instance

/-- Allocator states reachable through the public mutating interface
(src/lib.rs).  The unchecked from_raw_parts escape hatch, whose caller
bears responsibility for invariant preservation, is deliberately not a
constructor.  The closure result type of modify/try_modify is fixed to Nat;
the state transition depends only on the closure's object component. -/
inductive Reachable {O : Type} (derive : O → ℕ) : ObjAllocator O → Prop where
  | new : ∀ lo hi unit, Reachable derive (ObjAllocator.new lo hi unit)
  | with_elements : ∀ lo hi unit vec a,
      ObjAllocator.with_elements derive lo hi unit vec = some a →
      Reachable derive a
  | insert : ∀ a e, Reachable derive a →
      Reachable derive (ObjAllocator.insert derive a e).1
  | remove : ∀ a id pr, Reachable derive a →
      ObjAllocator.remove derive a id = some pr → Reachable derive pr.1
  | modify : ∀ a id (f : O → O × ℕ), Reachable derive a →
      Reachable derive (ObjAllocator.modify derive a id f).1
  | try_modify : ∀ a id (f : O → O × ℕ), Reachable derive a →
      Reachable derive (ObjAllocator.try_modify derive a id f).1
  | extend : ∀ a vec a', Reachable derive a →
      ObjAllocator.extend derive a vec = some a' → Reachable derive a'
  | try_extend : ∀ a vec, Reachable derive a →
      Reachable derive (ObjAllocator.try_extend derive a vec).1

/-! ### Concrete instantiation used by witnesses and counterexamples:
domain objects are bare numbers whose derived field is themselves, the
span is the spec's example span 0..100 with unit 10. -/

/-- The identity derivation used for concrete test states. -/
def derivNat (o : ℕ) : ℕ := o

/-- The spec's example allocator: span 0..100, unit 10, empty. -/
def exampleAlloc : ObjAllocator ℕ := ObjAllocator.new 0 100 10

/-- A reentrant insert_cyclic closure: it performs a further insertion
into the same store and then returns 5 as the value to be stored. -/
def cyclicClosure (_idn : ℕ) (m : IdMap ℕ) : IdMap ℕ × ℕ :=
  ((IdMap.insert m 7).1, 5)

/-- A populated well-formed allocator: identifiers 1 and 2 holding derived
values 10 and 20 inside span 0..100, as in the spec's walkthrough. -/
def sampleAlloc : ObjAllocator ℕ :=
  ⟨⟨[(1, 10), (2, 20)], 2⟩, ⟨0, 100, 10, [(1, 10), (2, 20)]⟩⟩

/-! ### Association-list lemmas -/

theorem lookupL_insertL_self {V : Type} (k : ℕ) (v : V) (l : List (ℕ × V)) :
    lookupL k (insertL k v l) = some v := by
  simp [insertL, lookupL]

theorem eraseL_cons {V : Type} (k : ℕ) (p : ℕ × V) (l : List (ℕ × V)) :
    eraseL k (p :: l) = if p.1 = k then eraseL k l else p :: eraseL k l := by
  by_cases hp : p.1 = k <;> simp [eraseL, List.filter_cons, hp]

theorem lookupL_eraseL_ne {V : Type} {k k' : ℕ} (h : k' ≠ k) (l : List (ℕ × V)) :
    lookupL k' (eraseL k l) = lookupL k' l := by
  induction l with
  | nil => rfl
  | cons p ps ih =>
    rw [eraseL_cons]
    by_cases hp : p.1 = k
    · have hp' : p.1 ≠ k' := by
        rw [hp]; exact fun e => h e.symm
      have hk : k ≠ k' := fun e => h e.symm
      simp [hp, lookupL, hp', ih, hk]
    · simp [hp, lookupL, ih]

theorem lookupL_eraseL_self {V : Type} (k : ℕ) (l : List (ℕ × V)) :
    lookupL k (eraseL k l) = none := by
  induction l with
  | nil => rfl
  | cons p ps ih =>
    rw [eraseL_cons]
    by_cases hp : p.1 = k
    · simp [hp, ih]
    · simp [hp, lookupL, ih]

theorem lookupL_insertL_ne {V : Type} {k k' : ℕ} (h : k' ≠ k) (v : V)
    (l : List (ℕ × V)) :
    lookupL k' (insertL k v l) = lookupL k' l := by
  have hk : k ≠ k' := fun e => h e.symm
  simp [insertL, lookupL, hk, lookupL_eraseL_ne h]

theorem lookupL_mem {V : Type} {k : ℕ} {v : V} {l : List (ℕ × V)}
    (h : lookupL k l = some v) : (k, v) ∈ l := by
  induction l with
  | nil => simp [lookupL] at h
  | cons p ps ih =>
    by_cases hp : p.1 = k
    · simp [lookupL, hp] at h
      simp [← hp, ← h]
    · simp [lookupL, hp] at h
      exact List.mem_cons_of_mem p (ih h)

theorem lookupL_eq_none {V : Type} {k : ℕ} {l : List (ℕ × V)}
    (h : ∀ p ∈ l, p.1 ≠ k) : lookupL k l = none := by
  induction l with
  | nil => rfl
  | cons p ps ih =>
    have hp : p.1 ≠ k := h p (List.mem_cons_self p ps)
    rw [lookupL, if_neg hp]
    exact ih (fun q hq => h q (List.mem_cons_of_mem p hq))

theorem mem_eraseL {V : Type} {k : ℕ} {p : ℕ × V} {l : List (ℕ × V)} :
    p ∈ eraseL k l ↔ p ∈ l ∧ p.1 ≠ k := by
  simp [eraseL, List.mem_filter]

theorem eraseL_eq_self {V : Type} {k : ℕ} {l : List (ℕ × V)}
    (h : ∀ p ∈ l, p.1 ≠ k) : eraseL k l = l := by
  induction l with
  | nil => rfl
  | cons p ps ih =>
    have hp : p.1 ≠ k := h p (List.mem_cons_self p ps)
    rw [eraseL_cons, if_neg hp]
    rw [ih (fun q hq => h q (List.mem_cons_of_mem p hq))]

theorem eraseL_insertL {V : Type} (k : ℕ) (v : V) (l : List (ℕ × V)) :
    eraseL k (insertL k v l) = eraseL k l := by
  simp [insertL, eraseL, List.filter_filter]

theorem mem_insertL {V : Type} {k : ℕ} {v : V} {p : ℕ × V} {l : List (ℕ × V)} :
    p ∈ insertL k v l ↔ p = (k, v) ∨ (p ∈ l ∧ p.1 ≠ k) := by
  simp [insertL, mem_eraseL]

/-! ### IdMap sequence lemmas -/

theorem insertSeq_ids {V : Type} (vs : List V) :
    ∀ m : IdMap V,
      (IdMap.insertSeq m vs).2 = List.range' (m.max_id + 1) vs.length := by
  induction vs with
  | nil => intro m; rfl
  | cons v vs ih =>
    intro m
    simp [IdMap.insertSeq, IdMap.insert, List.range', ih]

theorem insertSeq_gt {V : Type} (vs : List V) :
    ∀ m : IdMap V, ∀ i ∈ (IdMap.insertSeq m vs).2, m.max_id < i := by
  induction vs with
  | nil =>
    intro m i hi
    simp [IdMap.insertSeq] at hi
  | cons v vs ih =>
    intro m i hi
    simp only [IdMap.insertSeq, List.mem_cons] at hi
    rcases hi with h | h
    · simp [IdMap.insert] at h
      omega
    · have := ih (IdMap.insert m v).1 i h
      simp [IdMap.insert] at this
      omega

/-! ### Claim theorems: the Identifier Store -/

/-- Claim C6: every sequence of auto-generating inserts on a fresh store
returns exactly the identifiers 1, 2, 3, ..., in order, each one greater
than the previous by exactly one. -/
theorem c6_insert_sequence {V : Type} (vs : List V) :
    (IdMap.insertSeq (IdMap.with_id (V := V)) vs).2 = List.range' 1 vs.length :=
  insertSeq_ids vs IdMap.with_id

/-- Claim C7: insert_with_id returns the previously stored value and
overwrites it; the counter afterwards is the maximum of its old value and
the supplied identifier, hence unchanged when the identifier does not
exceed it, and when it does exceed it the next auto-generated identifier
is the supplied identifier plus one. -/
theorem c7_insert_with_id {V : Type} (m : IdMap V) (idn : ℕ) (v w : V) :
    (IdMap.insert_with_id m idn v).2 = IdMap.get m idn ∧
    IdMap.get (IdMap.insert_with_id m idn v).1 idn = some v ∧
    (IdMap.insert_with_id m idn v).1.max_id = max m.max_id idn ∧
    (idn ≤ m.max_id → (IdMap.insert_with_id m idn v).1.max_id = m.max_id) ∧
    (m.max_id < idn →
      (IdMap.insert (IdMap.insert_with_id m idn v).1 w).2 = idn + 1) := by
  refine ⟨rfl, ?_, ?_, ?_, ?_⟩
  · simp [IdMap.insert_with_id, IdMap.get, lookupL_insertL_self]
  · simp only [IdMap.insert_with_id]
    split <;> omega
  · intro h
    simp only [IdMap.insert_with_id]
    split <;> omega
  · intro h
    simp only [IdMap.insert, IdMap.insert_with_id]
    split <;> omega

/-- Witness for claim C7 at a store holding identifier 2 with counter 2. -/
theorem c7_witness :
    (IdMap.insert_with_id (⟨[(2, 9)], 2⟩ : IdMap ℕ) 5 7).2 = none ∧
    IdMap.get (IdMap.insert_with_id (⟨[(2, 9)], 2⟩ : IdMap ℕ) 5 7).1 5 = some 7 ∧
    (IdMap.insert_with_id (⟨[(2, 9)], 2⟩ : IdMap ℕ) 5 7).1.max_id = 5 ∧
    (IdMap.insert (IdMap.insert_with_id (⟨[(2, 9)], 2⟩ : IdMap ℕ) 5 7).1 0).2 = 6 := by
  have h := c7_insert_with_id (⟨[(2, 9)], 2⟩ : IdMap ℕ) 5 7 0
  exact ⟨h.1, h.2.1, h.2.2.1, h.2.2.2.2 (by decide)⟩

/-- Claim C8: clear empties the storage while leaving the counter alone,
so every identifier returned by inserts performed after the clear is
strictly greater than every identifier present before the clear. -/
theorem c8_clear {V : Type} (m : IdMap V) (vs : List V) (h : Bounded m) :
    (IdMap.clear m).inner = [] ∧
    (IdMap.clear m).max_id = m.max_id ∧
    ∀ i ∈ (IdMap.insertSeq (IdMap.clear m) vs).2, ∀ p ∈ m.inner, p.1 < i := by
  refine ⟨rfl, rfl, ?_⟩
  intro i hi p hp
  have h1 : (IdMap.clear m).max_id < i := insertSeq_gt vs (IdMap.clear m) i hi
  have h2 : p.1 ≤ m.max_id := h p hp
  simp only [IdMap.clear] at h1
  omega

/-- Witness for claim C8 at a store holding identifier 1 with counter 3:
the insert after the clear returns 4, exceeding the old key 1. -/
theorem c8_witness :
    (IdMap.clear (⟨[(1, 5)], 3⟩ : IdMap ℕ)).inner = [] ∧
    (IdMap.clear (⟨[(1, 5)], 3⟩ : IdMap ℕ)).max_id = 3 ∧
    (1 : ℕ) < 4 := by
  have h := c8_clear (⟨[(1, 5)], 3⟩ : IdMap ℕ) [9] (by decide)
  exact ⟨h.1, h.2.1, h.2.2 4 (by decide) (1, 5) (by decide)⟩

/-- Claim C10: insert_with_id with identifier 0 stores the value under 0
(contains_id and get observe it) and leaves the counter unchanged; the
manual-identifier path does not special-case 0. -/
theorem c10_id_zero {V : Type} (m : IdMap V) (v : V) :
    IdMap.contains_id (IdMap.insert_with_id m 0 v).1 0 = true ∧
    IdMap.get (IdMap.insert_with_id m 0 v).1 0 = some v ∧
    (IdMap.insert_with_id m 0 v).1.max_id = m.max_id := by
  refine ⟨?_, ?_, ?_⟩
  · simp [IdMap.contains_id, IdMap.insert_with_id, lookupL_insertL_self]
  · simp [IdMap.get, IdMap.insert_with_id, lookupL_insertL_self]
  · simp [IdMap.insert_with_id]

/-- Claim C3, counterexample: a closure that itself inserts into the same
store.  On the empty store, insert_cyclic reserves identifier 1 and
returns it, the closure's nested insert issues identifier 2 storing 7,
and the closure's result 5 is then stored under the store's current
counter 2 — overwriting the nested entry — while the returned identifier
1 is left unmapped.  This falsifies the claimed properties that the
result is stored under the reserved identifier and that entries created
inside the closure are never overwritten. -/
theorem c3_counterexample :
    (IdMap.insert_cyclic (IdMap.with_id (V := ℕ)) cyclicClosure).2 = 1 ∧
    IdMap.get (IdMap.insert_cyclic (IdMap.with_id (V := ℕ)) cyclicClosure).1 1
      = none ∧
    IdMap.get (IdMap.insert_cyclic (IdMap.with_id (V := ℕ)) cyclicClosure).1 2
      = some 5 := by
  decide

/-- Claim C3 as amended: for every closure that performs no further
insertions into the store, insert_cyclic reserves the next identifier
before invoking the closure and returns it, stores the closure's result
under that reserved identifier, and leaves every other entry unchanged. -/
theorem c3_cyclic_amended {V : Type} (m : IdMap V) (g : ℕ → V) :
    (IdMap.insert_cyclic m (fun idn mm => (mm, g idn))).2 = m.max_id + 1 ∧
    (IdMap.insert_cyclic m (fun idn mm => (mm, g idn))).1.max_id
      = m.max_id + 1 ∧
    IdMap.get (IdMap.insert_cyclic m (fun idn mm => (mm, g idn))).1
      (m.max_id + 1) = some (g (m.max_id + 1)) ∧
    ∀ k, k ≠ m.max_id + 1 →
      IdMap.get (IdMap.insert_cyclic m (fun idn mm => (mm, g idn))).1 k
        = IdMap.get m k := by
  refine ⟨rfl, rfl, ?_, ?_⟩
  · simp [IdMap.insert_cyclic, IdMap.get, lookupL_insertL_self]
  · intro k hk
    simp [IdMap.insert_cyclic, IdMap.get, lookupL_insertL_ne hk]

/-- Witness for the amended claim C3 on the empty store. -/
theorem c3_witness :
    (IdMap.insert_cyclic (IdMap.with_id (V := ℕ))
      (fun idn mm => (mm, idn * 10))).2 = 1 ∧
    IdMap.get (IdMap.insert_cyclic (IdMap.with_id (V := ℕ))
      (fun idn mm => (mm, idn * 10))).1 5 = none := by
  have h := c3_cyclic_amended (IdMap.with_id (V := ℕ)) (fun n => n * 10)
  refine ⟨h.1, ?_⟩
  rw [h.2.2.2 5 (by decide)]
  rfl

/-! ### Claim theorems: insert rollback and its frame -/

/-- Claim C2, counterexample: on the spec's own example (span 0..100,
unit 10, inserting an object with derived field 500) the insert is
rejected, yet the Identifier Store's counter moves from 0 to 1 — the
rollback removes the entry but never decrements the counter, so the
claim that max_id equals its pre-call value is false. -/
theorem c2_counterexample :
    (ObjAllocator.insert derivNat exampleAlloc 500).2
      = .error (.OutOfSpan 500) ∧
    exampleAlloc.id_map.max_id = 0 ∧
    (ObjAllocator.insert derivNat exampleAlloc 500).1.id_map.max_id = 1 := by
  decide

/-- Claim C2 as amended: a rejected insert leaves the Identifier Store's
size unchanged, and leaves max_id at exactly its pre-call value plus one
(the reservation is rolled back, the counter advance is not). -/
theorem c2_frame_amended {O : Type} (derive : O → ℕ) (a : ObjAllocator O)
    (e : O) (hb : Bounded a.id_map) (err : PlaceErr O)
    (h : (ObjAllocator.insert derive a e).2 = .error err) :
    IdMap.len (ObjAllocator.insert derive a e).1.id_map
      = IdMap.len a.id_map ∧
    (ObjAllocator.insert derive a e).1.id_map.max_id
      = a.id_map.max_id + 1 := by
  have hid : ∀ p ∈ a.id_map.inner, p.1 ≠ a.id_map.max_id + 1 := by
    intro p hp
    have := hb p hp
    omega
  simp only [ObjAllocator.insert, insertObj, IdMap.insert] at h ⊢
  split
  · rename_i c' heq
    rw [heq] at h
    simp at h
  · simp only [IdMap.remove, IdMap.len]
    rw [eraseL_insertL, eraseL_eq_self hid]
    exact ⟨rfl, trivial⟩
  · simp only [IdMap.remove, IdMap.len]
    rw [eraseL_insertL, eraseL_eq_self hid]
    exact ⟨rfl, trivial⟩

/-- Witness for the amended claim C2 at the spec's example rejection. -/
theorem c2_witness :
    Bounded exampleAlloc.id_map ∧
    IdMap.len (ObjAllocator.insert derivNat exampleAlloc 500).1.id_map
      = IdMap.len exampleAlloc.id_map ∧
    (ObjAllocator.insert derivNat exampleAlloc 500).1.id_map.max_id
      = exampleAlloc.id_map.max_id + 1 :=
  ⟨by decide,
   c2_frame_amended derivNat exampleAlloc 500 (by decide)
     (.OutOfSpan 500) (by decide)⟩

/-- The Field Index returns the whole rejected Record inside its error. -/
theorem FieldCollex.insert_error_payload {O : Type} (derive : O → ℕ)
    {c : FieldCollex O} {r o : ℕ × O} :
    (FieldCollex.insert derive c r = .error (.OutOfSpan o) → o = r) ∧
    (FieldCollex.insert derive c r = .error (.AlreadyExist o) → o = r) := by
  constructor <;> intro h <;> unfold FieldCollex.insert at h
  · split at h
    · simp_all
    · split at h <;> simp_all
  · split at h
    · simp_all
    · split at h <;> simp_all

/-- Claim C4: a successful insert returns the newly issued identifier;
a rejected insert (either OutOfSpan or AlreadyExist) removes the entry
just issued for this value from the Identifier Store before returning,
and the error carries the original input value. -/
theorem c4_insert_rollback {O : Type} (derive : O → ℕ) (a : ObjAllocator O)
    (e : O) :
    (∀ idn a', ObjAllocator.insert derive a e = (a', .ok idn) →
       idn = a.id_map.max_id + 1) ∧
    (∀ o a', ObjAllocator.insert derive a e = (a', .error (.OutOfSpan o)) →
       o = e ∧ IdMap.get a'.id_map (a.id_map.max_id + 1) = none) ∧
    (∀ o a', ObjAllocator.insert derive a e = (a', .error (.AlreadyExist o)) →
       o = e ∧ IdMap.get a'.id_map (a.id_map.max_id + 1) = none) := by
  refine ⟨?_, ?_, ?_⟩
  · intro idn a' hp
    simp only [ObjAllocator.insert, insertObj, IdMap.insert] at hp
    split at hp
    · simp only [Prod.mk.injEq, Except.ok.injEq] at hp
      exact hp.2.symm
    · simp at hp
    · simp at hp
  · intro o a' hp
    simp only [ObjAllocator.insert, insertObj, IdMap.insert] at hp
    split at hp
    · simp at hp
    · rename_i o1 heq
      simp only [Prod.mk.injEq, Except.error.injEq,
        PlaceErr.OutOfSpan.injEq] at hp
      have ho : o1 = (a.id_map.max_id + 1, e) :=
        (FieldCollex.insert_error_payload derive).1 heq
      refine ⟨?_, ?_⟩
      · rw [← hp.2, ho]
      · rw [← hp.1]
        simp [IdMap.remove, IdMap.get, lookupL_eraseL_self]
    · simp at hp
  · intro o a' hp
    simp only [ObjAllocator.insert, insertObj, IdMap.insert] at hp
    split at hp
    · simp at hp
    · simp at hp
    · rename_i o1 heq
      simp only [Prod.mk.injEq, Except.error.injEq,
        PlaceErr.AlreadyExist.injEq] at hp
      have ho : o1 = (a.id_map.max_id + 1, e) :=
        (FieldCollex.insert_error_payload derive).2 heq
      refine ⟨?_, ?_⟩
      · rw [← hp.2, ho]
      · rw [← hp.1]
        simp [IdMap.remove, IdMap.get, lookupL_eraseL_self]

/-- Witness for claim C4: one accepted insert and one rejected insert on
the spec's example allocator. -/
theorem c4_witness :
    (1 : ℕ) = exampleAlloc.id_map.max_id + 1 ∧
    (500 : ℕ) = 500 ∧
    IdMap.get (ObjAllocator.insert derivNat exampleAlloc 500).1.id_map
      (exampleAlloc.id_map.max_id + 1) = none := by
  have h₁ := (c4_insert_rollback derivNat exampleAlloc 50).1 1
    (ObjAllocator.insert derivNat exampleAlloc 50).1 (by decide)
  have h₂ := (c4_insert_rollback derivNat exampleAlloc 500).2.1 500
    (ObjAllocator.insert derivNat exampleAlloc 500).1 (by decide)
  exact ⟨h₁, h₂.1 ▸ rfl, h₂.2⟩

/-! ### extractP decomposition lemmas -/

theorem forall_ne_of_lookupL_none {V : Type} {k : ℕ} {l : List (ℕ × V)}
    (h : lookupL k l = none) : ∀ p ∈ l, p.1 ≠ k := by
  induction l with
  | nil => simp
  | cons p ps ih =>
    intro q hq
    by_cases hp : p.1 = k
    · rw [lookupL, if_pos hp] at h
      cases h
    · rw [lookupL, if_neg hp] at h
      rcases List.mem_cons.mp hq with hqe | hqm
      · rw [hqe]; exact hp
      · exact ih h q hqm

theorem extractP_decomp {α : Type} {p : α → Bool} :
    ∀ {l : List α} {y : α} {ys : List α}, extractP p l = some (y, ys) →
      p y = true ∧ ∃ l₁ l₂, l = l₁ ++ y :: l₂ ∧ ys = l₁ ++ l₂ := by
  intro l
  induction l with
  | nil => intro y ys h; simp [extractP] at h
  | cons x xs ih =>
    intro y ys h
    unfold extractP at h
    by_cases hx : p x
    · rw [if_pos hx] at h
      simp only [Option.some.injEq, Prod.mk.injEq] at h
      obtain ⟨h1, h2⟩ := h
      subst h1
      subst h2
      exact ⟨hx, [], xs, rfl, rfl⟩
    · rw [if_neg hx] at h
      cases hrec : extractP p xs with
      | none => rw [hrec] at h; cases h
      | some q =>
        obtain ⟨z, zs⟩ := q
        rw [hrec] at h
        simp only [Option.some.injEq, Prod.mk.injEq] at h
        obtain ⟨h1, h2⟩ := h
        subst h1
        obtain ⟨hp1, l₁, l₂, he1, he2⟩ := ih hrec
        refine ⟨hp1, x :: l₁, l₂, ?_, ?_⟩
        · rw [List.cons_append, ← he1]
        · rw [← h2, List.cons_append, ← he2]

theorem extractP_mem_rest {α : Type} {p : α → Bool} {l : List α} {y : α}
    {ys : List α} (h : extractP p l = some (y, ys)) : ∀ z ∈ ys, z ∈ l := by
  obtain ⟨_, l₁, l₂, he1, he2⟩ := extractP_decomp h
  intro z hz
  rw [he1]
  rw [he2] at hz
  simp only [List.mem_append, List.mem_cons] at hz ⊢
  tauto

theorem extractP_cover {α : Type} {p : α → Bool} {l : List α} {y : α}
    {ys : List α} (h : extractP p l = some (y, ys)) :
    ∀ z ∈ l, z = y ∨ z ∈ ys := by
  obtain ⟨_, l₁, l₂, he1, he2⟩ := extractP_decomp h
  intro z hz
  rw [he1] at hz
  rw [he2]
  simp only [List.mem_append, List.mem_cons] at hz ⊢
  tauto

theorem extractP_sat {α : Type} {p : α → Bool} {l : List α} {y : α}
    {ys : List α} (h : extractP p l = some (y, ys)) : p y = true :=
  (extractP_decomp h).1

theorem extractP_key_nodup {α β : Type} (g : α → β) {p : α → Bool}
    {l : List α} {y : α} {ys : List α} (h : extractP p l = some (y, ys))
    (hnd : (l.map g).Nodup) : (ys.map g).Nodup ∧ g y ∉ ys.map g := by
  obtain ⟨_, l₁, l₂, he1, he2⟩ := extractP_decomp h
  rw [he1, List.map_append, List.map_cons] at hnd
  have hmid := List.nodup_middle.mp hnd
  rw [List.nodup_cons] at hmid
  rw [he2, List.map_append]
  exact ⟨hmid.2, hmid.1⟩

theorem extractP_isSome {α : Type} {p : α → Bool} {l : List α} {x : α}
    (hx : x ∈ l) (hp : p x = true) : (extractP p l).isSome = true := by
  induction l with
  | nil => cases hx
  | cons z zs ih =>
    unfold extractP
    by_cases hz : p z
    · rw [if_pos hz]; rfl
    · rw [if_neg hz]
      rcases List.mem_cons.mp hx with he | hm
      · rw [he] at hp; exact (hz hp).elim
      · have := ih hm
        cases hrec : extractP p zs with
        | none => rw [hrec] at this; cases this
        | some q => obtain ⟨y, ys⟩ := q; rfl

/-! ### FieldCollex branch characterizations -/

theorem FieldCollex.insert_ok_spec {O : Type} (derive : O → ℕ)
    {c c' : FieldCollex O} {r : ℕ × O}
    (h : FieldCollex.insert derive c r = .ok c') :
    inSpan c (derive r.2) ∧ (∀ x ∈ c.elements, derive x.2 ≠ derive r.2) ∧
    c' = { c with elements := c.elements ++ [r] } := by
  unfold FieldCollex.insert at h
  split at h
  · cases h
  · rename_i hspan
    split at h
    · cases h
    · rename_i hcoll
      refine ⟨not_not.mp hspan, ?_, by cases h; rfl⟩
      intro x hx he
      exact hcoll (List.any_eq_true.mpr ⟨x, hx, by simp [he]⟩)

theorem FieldCollex.modify_ok_spec {O R : Type} (derive : O → ℕ)
    {c c' : FieldCollex O} {v : ℕ} {f : O → O × R} {rk : R × ℕ}
    (h : FieldCollex.modify derive c v f = (c', .ok rk)) :
    ∃ r rest, extractP (fun x => derive x.2 == v) c.elements = some (r, rest) ∧
      rk.2 = derive (f r.2).1 ∧ inSpan c rk.2 ∧
      (∀ x ∈ rest, derive x.2 ≠ rk.2) ∧
      c' = { c with elements := rest ++ [(r.1, (f r.2).1)] } := by
  unfold FieldCollex.modify at h
  split at h
  · simp at h
  · rename_i r rest hx
    split at h
    · simp at h
    · rename_i hspan
      split at h
      · simp at h
      · rename_i hcoll
        simp only [Prod.mk.injEq, Except.ok.injEq] at h
        obtain ⟨hc', hrk⟩ := h
        subst hrk
        refine ⟨r, rest, hx, rfl, not_not.mp hspan, ?_, hc'.symm⟩
        intro x hxr he
        exact hcoll (List.any_eq_true.mpr ⟨x, hxr, by simp [he]⟩)

/-- Under the well-formedness invariant, the Record the index holds under
the derived value stored for an identifier is exactly that identifier's
Record, and no remaining Record carries the identifier. -/
theorem record_of_get {O : Type} (derive : O → ℕ) {a : ObjAllocator O}
    (hw : WF derive a) {id v : ℕ}
    (hget : IdMap.get a.id_map id = some v)
    {r : ℕ × O} {rest : List (ℕ × O)}
    (hx : extractP (fun x => derive x.2 == v) a.collex.elements = some (r, rest)) :
    r.1 = id ∧ derive r.2 = v ∧ (∀ x ∈ rest, x.1 ≠ id) := by
  obtain ⟨⟨hc1, hc2⟩, hnd, hsp, hb⟩ := hw
  unfold KeysNodup at hnd
  have hkey : derive r.2 = v := by
    have := extractP_sat hx
    simpa using this
  have hnd' := extractP_key_nodup (fun x : ℕ × O => derive x.2) hx hnd
  have hvnot : v ∉ rest.map (fun x => derive x.2) := by
    rw [← hkey]; exact hnd'.2
  have hmem : (id, v) ∈ a.id_map.inner := lookupL_mem hget
  obtain ⟨s, hs, hs1, hs2⟩ := hc1 (id, v) hmem
  have hsr : s = r := by
    rcases extractP_cover hx s hs with he | hm
    · exact he
    · exact (hvnot (List.mem_map.mpr ⟨s, hm, hs2⟩)).elim
  refine ⟨by rw [← hsr, hs1], hkey, ?_⟩
  intro x hxr hxid
  have hx2 := hc2 x (extractP_mem_rest hx x hxr)
  rw [hxid, hget] at hx2
  have : derive x.2 = v := by
    simpa using hx2.symm
  exact hvnot (List.mem_map.mpr ⟨x, hxr, this⟩)

/-! ### Preservation of well-formedness by the mutating operations -/

theorem wf_insert {O : Type} (derive : O → ℕ) {a : ObjAllocator O}
    (hw : WF derive a) (e : O) :
    WF derive (ObjAllocator.insert derive a e).1 := by
  obtain ⟨⟨hc1, hc2⟩, hnd, hsp, hb⟩ := hw
  unfold KeysNodup at hnd
  have hfresh : ∀ p ∈ a.id_map.inner, p.1 ≠ a.id_map.max_id + 1 := by
    intro p hp
    have := hb p hp
    omega
  simp only [ObjAllocator.insert, insertObj, IdMap.insert]
  split
  · rename_i c' heq
    obtain ⟨hspan, hnocoll, hc'⟩ := FieldCollex.insert_ok_spec derive heq
    subst hc'
    refine ⟨⟨?_, ?_⟩, ?_, ?_, ?_⟩
    · intro p hp
      rcases mem_insertL.mp hp with hpe | ⟨hpl, _⟩
      · subst hpe
        refine ⟨(a.id_map.max_id + 1, e), ?_, rfl, rfl⟩
        simp
      · obtain ⟨s, hs, hs1, hs2⟩ := hc1 p hpl
        exact ⟨s, List.mem_append_left _ hs, hs1, hs2⟩
    · intro r hr
      rcases List.mem_append.mp hr with hro | hrn
      · have hold := hc2 r hro
        have hmem : (r.1, derive r.2) ∈ a.id_map.inner := lookupL_mem hold
        have hne : r.1 ≠ a.id_map.max_id + 1 := hfresh _ hmem
        simp only [IdMap.get]
        rw [lookupL_insertL_ne hne]
        exact hold
      · simp only [List.mem_singleton] at hrn
        subst hrn
        simp [IdMap.get, lookupL_insertL_self]
    · unfold KeysNodup
      simp only [List.map_append, List.map_cons, List.map_nil]
      rw [List.nodup_append]
      refine ⟨hnd, List.nodup_singleton _, ?_⟩
      intro x hx1 hx2
      simp only [List.mem_singleton] at hx2
      subst hx2
      obtain ⟨s, hs, hseq⟩ := List.mem_map.mp hx1
      exact hnocoll s hs hseq
    · intro r hr
      rcases List.mem_append.mp hr with hro | hrn
      · exact hsp r hro
      · simp only [List.mem_singleton] at hrn
        subst hrn
        exact hspan
    · intro p hp
      rcases mem_insertL.mp hp with hpe | ⟨hpl, _⟩
      · subst hpe
        exact le_refl _
      · have := hb p hpl
        show p.1 ≤ a.id_map.max_id + 1
        omega
  · simp only [IdMap.remove]
    rw [eraseL_insertL, eraseL_eq_self hfresh]
    refine ⟨⟨hc1, hc2⟩, hnd, hsp, ?_⟩
    intro p hp
    have := hb p hp
    show p.1 ≤ a.id_map.max_id + 1
    omega
  · simp only [IdMap.remove]
    rw [eraseL_insertL, eraseL_eq_self hfresh]
    refine ⟨⟨hc1, hc2⟩, hnd, hsp, ?_⟩
    intro p hp
    have := hb p hp
    show p.1 ≤ a.id_map.max_id + 1
    omega

theorem wf_remove {O : Type} (derive : O → ℕ) {a : ObjAllocator O}
    (hw : WF derive a) (id : ℕ) {pr : ObjAllocator O × Option O}
    (h : ObjAllocator.remove derive a id = some pr) :
    WF derive pr.1 := by
  have hw' := hw
  obtain ⟨⟨hc1, hc2⟩, hnd, hsp, hb⟩ := hw'
  unfold KeysNodup at hnd
  simp only [ObjAllocator.remove, IdMap.remove] at h
  split at h
  · rename_i hget
    simp only [Option.some.injEq] at h
    subst h
    have hnone : ∀ p ∈ a.id_map.inner, p.1 ≠ id :=
      forall_ne_of_lookupL_none hget
    rw [eraseL_eq_self hnone]
    exact ⟨⟨hc1, hc2⟩, hnd, hsp, hb⟩
  · rename_i v hget
    split at h
    · cases h
    · rename_i c' r hrem
      simp only [Option.some.injEq] at h
      subst h
      unfold FieldCollex.remove at hrem
      cases hx : extractP (fun x => derive x.2 == v) a.collex.elements with
      | none => rw [hx] at hrem; cases hrem
      | some q =>
        obtain ⟨r0, rest⟩ := q
        rw [hx] at hrem
        simp only [Option.some.injEq, Prod.mk.injEq] at hrem
        obtain ⟨hcc, hrr⟩ := hrem
        subst hcc
        subst hrr
        obtain ⟨hrid, hrkey, hrestid⟩ :=
          record_of_get derive hw (show IdMap.get a.id_map id = some v from hget) hx
        have hkeys := extractP_key_nodup (fun x : ℕ × O => derive x.2) hx hnd
        refine ⟨⟨?_, ?_⟩, ?_, ?_, ?_⟩
        · intro p hp
          obtain ⟨hpl, hpne⟩ := mem_eraseL.mp hp
          obtain ⟨s, hs, hs1, hs2⟩ := hc1 p hpl
          rcases extractP_cover hx s hs with he | hm
          · exfalso
            apply hpne
            rw [← hs1, he, hrid]
          · exact ⟨s, hm, hs1, hs2⟩
        · intro x hxr
          have hxne : x.1 ≠ id := hrestid x hxr
          simp only [IdMap.get]
          rw [lookupL_eraseL_ne hxne]
          exact hc2 x (extractP_mem_rest hx x hxr)
        · exact hkeys.1
        · intro x hxr
          exact hsp x (extractP_mem_rest hx x hxr)
        · intro p hp
          exact hb p (mem_eraseL.mp hp).1

theorem wf_modify {O R : Type} (derive : O → ℕ) {a : ObjAllocator O}
    (hw : WF derive a) (id : ℕ) (f : O → O × R) :
    WF derive (ObjAllocator.modify derive a id f).1 := by
  have hw' := hw
  obtain ⟨⟨hc1, hc2⟩, hnd, hsp, hb⟩ := hw'
  unfold KeysNodup at hnd
  simp only [ObjAllocator.modify]
  split
  · exact hw
  · rename_i v hget
    split
    · exact hw
    · rename_i c' rk heq
      obtain ⟨r, rest, hx, hrk2, hspan, hcoll, hc'⟩ :=
        FieldCollex.modify_ok_spec derive heq
      subst hc'
      obtain ⟨hrid, hrkey, hrestid⟩ := record_of_get derive hw hget hx
      have hidmax : id ≤ a.id_map.max_id := hb (id, v) (lookupL_mem hget)
      have hkeys := extractP_key_nodup (fun x : ℕ × O => derive x.2) hx hnd
      refine ⟨⟨?_, ?_⟩, ?_, ?_, ?_⟩
      · intro p hp
        simp only [IdMap.setVal] at hp
        rcases mem_insertL.mp hp with hpe | ⟨hpl, hpne⟩
        · subst hpe
          refine ⟨(r.1, (f r.2).1), ?_, ?_, ?_⟩
          · simp
          · exact hrid
          · exact hrk2.symm
        · obtain ⟨s, hs, hs1, hs2⟩ := hc1 p hpl
          rcases extractP_cover hx s hs with he | hm
          · exfalso
            apply hpne
            rw [← hs1, he, hrid]
          · exact ⟨s, List.mem_append_left _ hm, hs1, hs2⟩
      · intro x hxr
        rcases List.mem_append.mp hxr with hxm | hxn
        · have hxne : x.1 ≠ id := hrestid x hxm
          simp only [IdMap.get, IdMap.setVal]
          rw [lookupL_insertL_ne hxne]
          exact hc2 x (extractP_mem_rest hx x hxm)
        · simp only [List.mem_singleton] at hxn
          subst hxn
          simp only [IdMap.get, IdMap.setVal]
          rw [hrid, lookupL_insertL_self, ← hrk2]
      · unfold KeysNodup
        simp only [List.map_append, List.map_cons, List.map_nil]
        rw [List.nodup_append]
        refine ⟨hkeys.1, List.nodup_singleton _, ?_⟩
        intro x hx1 hx2
        simp only [List.mem_singleton] at hx2
        subst hx2
        obtain ⟨s, hs, hseq⟩ := List.mem_map.mp hx1
        apply hcoll s hs
        rw [hseq, hrk2]
      · intro x hxr
        rcases List.mem_append.mp hxr with hxm | hxn
        · exact hsp x (extractP_mem_rest hx x hxm)
        · simp only [List.mem_singleton] at hxn
          subst hxn
          rw [hrk2] at hspan
          exact hspan
      · intro p hp
        simp only [IdMap.setVal] at hp
        rcases mem_insertL.mp hp with hpe | ⟨hpl, _⟩
        · subst hpe
          exact hidmax
        · exact hb p hpl

theorem try_modify_eq_modify {O R : Type} (derive : O → ℕ) (a : ObjAllocator O)
    (id : ℕ) (f : O → O × R) :
    ObjAllocator.try_modify derive a id f = ObjAllocator.modify derive a id f :=
  rfl

theorem wf_try_modify {O R : Type} (derive : O → ℕ) {a : ObjAllocator O}
    (hw : WF derive a) (id : ℕ) (f : O → O × R) :
    WF derive (ObjAllocator.try_modify derive a id f).1 := by
  rw [try_modify_eq_modify]
  exact wf_modify derive hw id f

theorem wf_extend {O : Type} (derive : O → ℕ) :
    ∀ (vec : List O) {a : ObjAllocator O}, WF derive a →
      ∀ {a' : ObjAllocator O}, ObjAllocator.extend derive a vec = some a' →
        WF derive a' := by
  intro vec
  induction vec with
  | nil =>
    intro a hw a' h
    simp only [ObjAllocator.extend, extend_from_vec, FieldCollex.extend,
      Option.some.injEq] at h
    rw [← h]
    exact hw
  | cons e es ih =>
    intro a hw a' h
    simp only [ObjAllocator.extend, extend_from_vec, insertObj, IdMap.insert,
      FieldCollex.extend] at h
    cases heq : FieldCollex.insert derive a.collex (a.id_map.max_id + 1, e) with
    | error pe =>
      simp only [heq] at h
      cases h
    | ok c1 =>
      simp only [heq] at h
      have hstep : ObjAllocator.insert derive a e =
          (⟨⟨insertL (a.id_map.max_id + 1) (derive e) a.id_map.inner,
             a.id_map.max_id + 1⟩, c1⟩, .ok (a.id_map.max_id + 1)) := by
        simp only [ObjAllocator.insert, insertObj, IdMap.insert]
        rw [heq]
      have hwf1 : WF derive
          (⟨⟨insertL (a.id_map.max_id + 1) (derive e) a.id_map.inner,
             a.id_map.max_id + 1⟩, c1⟩ : ObjAllocator O) := by
        have hi := wf_insert derive hw e
        rw [hstep] at hi
        exact hi
      apply ih hwf1
      simp only [ObjAllocator.extend]
      exact h

theorem wf_try_extend {O : Type} (derive : O → ℕ) :
    ∀ (vec : List O) {a : ObjAllocator O}, WF derive a →
      (ObjAllocator.try_extend derive a vec).2 = none →
      WF derive (ObjAllocator.try_extend derive a vec).1 := by
  intro vec
  induction vec with
  | nil =>
    intro a hw _
    exact hw
  | cons e es ih =>
    intro a hw hok
    simp only [ObjAllocator.try_extend, extend_from_vec, insertObj,
      IdMap.insert, FieldCollex.try_extend] at hok ⊢
    split at hok
    · rename_i c1 heq
      have hstep : ObjAllocator.insert derive a e =
          (⟨⟨insertL (a.id_map.max_id + 1) (derive e) a.id_map.inner,
             a.id_map.max_id + 1⟩, c1⟩, .ok (a.id_map.max_id + 1)) := by
        simp only [ObjAllocator.insert, insertObj, IdMap.insert]
        rw [heq]
      have hwf1 : WF derive
          (⟨⟨insertL (a.id_map.max_id + 1) (derive e) a.id_map.inner,
             a.id_map.max_id + 1⟩, c1⟩ : ObjAllocator O) := by
        have hi := wf_insert derive hw e
        rw [hstep] at hi
        exact hi
      have := ih hwf1
      simp only [ObjAllocator.try_extend] at this
      exact this hok
    · cases hok

/-! ### Claim theorems: the core consistency invariant and remove safety -/

/-- Claim C1, counterexample: try_extend on the empty example allocator
with a single out-of-span element returns (reporting the failure), yet
leaves identifier 1 in the Identifier Store while the Field Index holds
no Record — the identifier sets of the two stores differ after a public
mutating operation has returned. -/
theorem c1_counterexample :
    (ObjAllocator.try_extend derivNat exampleAlloc [500]).1.id_map.inner
      = [(1, 500)] ∧
    (ObjAllocator.try_extend derivNat exampleAlloc [500]).1.collex.elements
      = [] ∧
    ¬ Consistent derivNat
        (ObjAllocator.try_extend derivNat exampleAlloc [500]).1 := by
  refine ⟨by decide, by decide, by decide⟩

/-- Claim C1 as amended: starting from a well-formed allocator (the core
consistency invariant together with the index's bucket uniqueness and
span discipline and the store's key bound), insert, remove, modify and
try_modify preserve well-formedness whenever they return, and extend and
try_extend preserve it whenever every element is accepted; a try_extend
that rejects an element is exempt — it returns with identifiers in the
Identifier Store that are absent from the Field Index. -/
theorem c1_invariant_amended {O R : Type} (derive : O → ℕ)
    (a : ObjAllocator O) (hw : WF derive a) :
    (∀ e, WF derive (ObjAllocator.insert derive a e).1) ∧
    (∀ id pr, ObjAllocator.remove derive a id = some pr → WF derive pr.1) ∧
    (∀ id (f : O → O × R), WF derive (ObjAllocator.modify derive a id f).1) ∧
    (∀ id (f : O → O × R),
       WF derive (ObjAllocator.try_modify derive a id f).1) ∧
    (∀ vec a', ObjAllocator.extend derive a vec = some a' → WF derive a') ∧
    (∀ vec, (ObjAllocator.try_extend derive a vec).2 = none →
       WF derive (ObjAllocator.try_extend derive a vec).1) :=
  ⟨fun e => wf_insert derive hw e,
   fun id _ h => wf_remove derive hw id h,
   fun id f => wf_modify derive hw id f,
   fun id f => wf_try_modify derive hw id f,
   fun vec _ h => wf_extend derive vec hw h,
   fun vec h => wf_try_extend derive vec hw h⟩

/-- Witness for the amended claim C1 at the empty example allocator. -/
theorem c1_witness :
    WF derivNat exampleAlloc ∧
    WF derivNat (ObjAllocator.insert derivNat exampleAlloc 50).1 :=
  ⟨by decide,
   (c1_invariant_amended (R := ℕ) derivNat exampleAlloc (by decide)).1 50⟩

/-- Claim C9, counterexample: the state left by a failed try_extend on the
example allocator is reachable through the public interface, holds
identifier 1 in the Identifier Store, and remove(1) then reaches the
unwrap on the missing Field Index Record — the modelled panic (none). -/
theorem c9_counterexample :
    Reachable derivNat (ObjAllocator.try_extend derivNat exampleAlloc [500]).1 ∧
    ObjAllocator.remove derivNat
      (ObjAllocator.try_extend derivNat exampleAlloc [500]).1 1 = none :=
  ⟨Reachable.try_extend exampleAlloc [500] (Reachable.new 0 100 10),
   by decide⟩

/-- Claim C9 as amended: on every allocator satisfying the consistency
invariant, remove of an absent identifier returns nothing and leaves the
Field Index untouched, and remove of any identifier never reaches the
panicking unwrap. -/
theorem c9_remove_amended {O : Type} (derive : O → ℕ) (a : ObjAllocator O)
    (hw : WF derive a) (id : ℕ) :
    (IdMap.get a.id_map id = none →
       ObjAllocator.remove derive a id
         = some (⟨(IdMap.remove a.id_map id).1, a.collex⟩, none)) ∧
    (ObjAllocator.remove derive a id).isSome = true := by
  obtain ⟨⟨hc1, hc2⟩, hnd, hsp, hb⟩ := hw
  constructor
  · intro hnone
    simp only [ObjAllocator.remove, IdMap.remove, IdMap.get] at hnone ⊢
    simp only [hnone]
  · cases hget : IdMap.get a.id_map id with
    | none =>
      simp only [IdMap.get] at hget
      simp only [ObjAllocator.remove, IdMap.remove]
      simp [hget]
    | some v =>
      have hmem : (id, v) ∈ a.id_map.inner := lookupL_mem hget
      obtain ⟨s, hs, hs1, hs2⟩ := hc1 (id, v) hmem
      have hsat : (fun x : ℕ × O => derive x.2 == v) s = true := by
        simp [hs2]
      have hsome := extractP_isSome (p := fun x : ℕ × O => derive x.2 == v)
        hs hsat
      simp only [IdMap.get] at hget
      simp only [ObjAllocator.remove, IdMap.remove, FieldCollex.remove]
      simp only [hget]
      cases hx : extractP (fun x : ℕ × O => derive x.2 == v)
          a.collex.elements with
      | none => rw [hx] at hsome; cases hsome
      | some q =>
        obtain ⟨r0, rest⟩ := q
        simp [hx]

/-- Witness for the amended claim C9 at the populated sample allocator:
removing the absent identifier 7 returns nothing with the index
untouched, and removing the present identifier 1 does not panic. -/
theorem c9_witness :
    ObjAllocator.remove derivNat sampleAlloc 7
      = some (⟨(IdMap.remove sampleAlloc.id_map 7).1, sampleAlloc.collex⟩,
              none) ∧
    (ObjAllocator.remove derivNat sampleAlloc 1).isSome = true := by
  have h7 := c9_remove_amended derivNat sampleAlloc (by decide) 7
  have h1 := c9_remove_amended derivNat sampleAlloc (by decide) 1
  exact ⟨h7.1 (by decide), h1.2⟩

/-! ### Round-trip lemmas for the serialization pipeline -/

theorem FieldCollex.extend_cons {O : Type} (derive : O → ℕ)
    (c : FieldCollex O) (r : ℕ × O) (rs : List (ℕ × O)) :
    FieldCollex.extend derive c (r :: rs)
      = match FieldCollex.insert derive c r with
        | .ok c' => FieldCollex.extend derive c' rs
        | .error _ => none := rfl

theorem extend_all_ok {O : Type} (derive : O → ℕ) :
    ∀ (rs : List (ℕ × O)) (c : FieldCollex O),
      (∀ x ∈ rs, inSpan c (derive x.2)) →
      ((c.elements ++ rs).map (fun x : ℕ × O => derive x.2)).Nodup →
      FieldCollex.extend derive c rs
        = some { c with elements := c.elements ++ rs } := by
  intro rs
  induction rs with
  | nil =>
    intro c _ _
    rw [List.append_nil]
    rfl
  | cons r rs ih =>
    intro c hsp hnd
    have hspan : inSpan c (derive r.2) := hsp r (List.mem_cons_self r rs)
    have hmid : ((c.elements.map (fun x : ℕ × O => derive x.2))
        ++ derive r.2 :: (rs.map (fun x : ℕ × O => derive x.2))).Nodup := by
      simpa using hnd
    have hhead := List.nodup_cons.mp (List.nodup_middle.mp hmid)
    have hnocoll : ¬ (c.elements.any
        (fun x => derive x.2 == derive r.2) = true) := by
      intro hany
      obtain ⟨x, hx, he⟩ := List.any_eq_true.mp hany
      apply hhead.1
      apply List.mem_append_left
      exact List.mem_map.mpr ⟨x, hx, by simpa using he⟩
    have hins : FieldCollex.insert derive c r
        = .ok { c with elements := c.elements ++ [r] } := by
      unfold FieldCollex.insert
      rw [if_neg (not_not_intro hspan), if_neg hnocoll]
    rw [FieldCollex.extend_cons, hins]
    show FieldCollex.extend derive { c with elements := c.elements ++ [r] } rs
      = some { c with elements := c.elements ++ r :: rs }
    rw [ih { c with elements := c.elements ++ [r] }
      (fun x hx => hsp x (List.mem_cons_of_mem r hx))
      (by rw [List.append_assoc, List.singleton_append]; exact hnd)]
    simp [List.append_assoc]

theorem foldF_max_mono {O : Type} (derive : O → ℕ) :
    ∀ (rs : List (ℕ × O)) (m : IdMap ℕ),
      m.max_id ≤ (rs.foldl
        (fun m x => (IdMap.insert_with_id m x.1 (derive x.2)).1) m).max_id := by
  intro rs
  induction rs with
  | nil => intro m; exact le_refl _
  | cons x xs ih =>
    intro m
    simp only [List.foldl_cons]
    refine le_trans ?_ (ih (IdMap.insert_with_id m x.1 (derive x.2)).1)
    simp only [IdMap.insert_with_id]
    split <;> omega

theorem foldF_max_ge {O : Type} (derive : O → ℕ) :
    ∀ (rs : List (ℕ × O)) (m : IdMap ℕ), ∀ r ∈ rs,
      r.1 ≤ (rs.foldl
        (fun m x => (IdMap.insert_with_id m x.1 (derive x.2)).1) m).max_id := by
  intro rs
  induction rs with
  | nil => intro m r hr; cases hr
  | cons x xs ih =>
    intro m r hr
    simp only [List.foldl_cons]
    rcases List.mem_cons.mp hr with he | hm
    · subst he
      refine le_trans ?_ (foldF_max_mono derive xs _)
      simp only [IdMap.insert_with_id]
      split <;> omega
    · exact ih _ r hm

theorem foldF_lookup_notmem {O : Type} (derive : O → ℕ) :
    ∀ (rs : List (ℕ × O)) (m : IdMap ℕ) (k : ℕ),
      (∀ r ∈ rs, r.1 ≠ k) →
      lookupL k (rs.foldl
        (fun m x => (IdMap.insert_with_id m x.1 (derive x.2)).1) m).inner
        = lookupL k m.inner := by
  intro rs
  induction rs with
  | nil => intro m k _; rfl
  | cons x xs ih =>
    intro m k hne
    simp only [List.foldl_cons]
    rw [ih _ k (fun s hs => hne s (List.mem_cons_of_mem x hs))]
    simp only [IdMap.insert_with_id]
    exact lookupL_insertL_ne (Ne.symm (hne x (List.mem_cons_self x xs))) _ _

theorem foldF_lookup_mem {O : Type} (derive : O → ℕ) :
    ∀ (rs : List (ℕ × O)) (m : IdMap ℕ) (r : ℕ × O),
      r ∈ rs → (rs.map Prod.fst).Nodup →
      lookupL r.1 (rs.foldl
        (fun m x => (IdMap.insert_with_id m x.1 (derive x.2)).1) m).inner
        = some (derive r.2) := by
  intro rs
  induction rs with
  | nil => intro m r hr; cases hr
  | cons x xs ih =>
    intro m r hr hnd
    simp only [List.map_cons, List.nodup_cons] at hnd
    simp only [List.foldl_cons]
    rcases List.mem_cons.mp hr with he | hm
    · subst he
      have hne : ∀ s ∈ xs, s.1 ≠ r.1 := by
        intro s hs he2
        exact hnd.1 (List.mem_map.mpr ⟨s, hs, he2⟩)
      rw [foldF_lookup_notmem derive xs _ r.1 hne]
      simp only [IdMap.insert_with_id]
      exact lookupL_insertL_self r.1 _ _
    · exact ih _ r hm hnd.2

theorem fst_nodup_of_key_nodup {O : Type} (derive : O → ℕ)
    (g : ℕ → Option ℕ) :
    ∀ (l : List (ℕ × O)),
      (∀ r ∈ l, g r.1 = some (derive r.2)) →
      ((l.map (fun r : ℕ × O => derive r.2)).Nodup) →
      (l.map Prod.fst).Nodup := by
  intro l
  induction l with
  | nil =>
    intro _ _
    simp
  | cons x xs ih =>
    intro hg hnd
    simp only [List.map_cons, List.nodup_cons] at hnd ⊢
    refine ⟨?_, ih (fun r hr => hg r (List.mem_cons_of_mem x hr)) hnd.2⟩
    intro hmem
    obtain ⟨s, hs, hse⟩ := List.mem_map.mp hmem
    apply hnd.1
    have h1 := hg x (List.mem_cons_self x xs)
    have h2 := hg s (List.mem_cons_of_mem x hs)
    rw [hse, h1] at h2
    refine List.mem_map.mpr ⟨s, hs, ?_⟩
    injection h2 with h3
    exact h3.symm

/-- Claim C5: serializing an Allocator produces exactly its Field Index
representation (the Identifier Store omitted), and deserializing it back
yields an Allocator with an identical Field Index (span, unit and record
order included), an extensionally identical Identifier Store mapping, and
a rebuilt counter at least every restored identifier.  The allocator is
assumed well-formed — the invariant every purely successful history
establishes. -/
theorem c5_roundtrip {O : Type} (derive : O → ℕ) (a : ObjAllocator O)
    (hw : WF derive a) :
    ObjAllocator.serialize a = a.collex ∧
    ∃ a', ObjAllocator.deserialize derive (ObjAllocator.serialize a)
        = some a' ∧
      a'.collex = a.collex ∧
      (∀ k, IdMap.get a'.id_map k = IdMap.get a.id_map k) ∧
      (∀ r ∈ a.collex.elements, r.1 ≤ a'.id_map.max_id) := by
  have hw' := hw
  obtain ⟨⟨hc1, hc2⟩, hnd, hsp, hb⟩ := hw'
  unfold KeysNodup at hnd
  have hfst : (a.collex.elements.map Prod.fst).Nodup := by
    refine fst_nodup_of_key_nodup derive (fun k => lookupL k a.id_map.inner)
      a.collex.elements ?_ hnd
    intro r hr
    exact hc2 r hr
  have hwe : FieldCollex.with_elements derive a.collex.lo a.collex.hi
      a.collex.unit a.collex.elements = some a.collex := by
    unfold FieldCollex.with_elements
    rw [extend_all_ok derive a.collex.elements
      ⟨a.collex.lo, a.collex.hi, a.collex.unit, []⟩ ?_ ?_]
    · simp
    · intro x hx
      exact hsp x hx
    · simpa using hnd
  refine ⟨rfl, ⟨a.collex.elements.foldl
      (fun m r => (IdMap.insert_with_id m r.1 (derive r.2)).1)
      (IdMap.with_id_capacity a.collex.elements.length), a.collex⟩,
    ?_, rfl, ?_, ?_⟩
  · unfold ObjAllocator.deserialize ObjAllocator.serialize
    simp only [hwe]
  · intro k
    simp only [IdMap.get]
    cases hk : lookupL k a.id_map.inner with
    | some v =>
      obtain ⟨s, hs, hs1, hs2⟩ := hc1 (k, v) (lookupL_mem hk)
      have hs1' : s.1 = k := hs1
      have hs2' : derive s.2 = v := hs2
      have hlm := foldF_lookup_mem derive a.collex.elements
        (IdMap.with_id_capacity a.collex.elements.length) s hs hfst
      rw [hs1'] at hlm
      rw [hlm, hs2']
    | none =>
      have hne : ∀ r ∈ a.collex.elements, r.1 ≠ k := by
        intro r hr he
        have hr2 := hc2 r hr
        simp only [IdMap.get] at hr2
        rw [he, hk] at hr2
        cases hr2
      rw [foldF_lookup_notmem derive a.collex.elements _ k hne]
      rfl
  · intro r hr
    exact foldF_max_ge derive a.collex.elements _ r hr

/-- Witness for claim C5 at the populated sample allocator. -/
theorem c5_witness :
    (ObjAllocator.deserialize derivNat
      (ObjAllocator.serialize sampleAlloc)).isSome = true ∧
    WF derivNat sampleAlloc := by
  refine ⟨?_, by decide⟩
  obtain ⟨-, a', hdes, -⟩ := c5_roundtrip derivNat sampleAlloc (by decide)
  rw [hdes]
  rfl

end ObjAlloc
